import Mathlib

/-!
Shallow embedding of the cip-ws message-flow core, translated from the
JavaScript sources, together with theorems settling the frozen claims.

Sources embedded here:
* `src/lib/session/contacts.js` — `normalizeChatId` (string normalization)
* `src/bot/buffer/TurnAssembler.js` — `assembleTurn`, `guessLang`,
  `explicitModality`, `isFinalizer`
* `src/bot/policy/BotPolicy.js` — `allowProcess`, `allowSend`, `_getSession`,
  `_getChat`, `_getSelfWaIds`
* `src/bot/watchers/TurnOutboxWatcher.js` and the watcher iteration embedded
  in `src/bot/media/MediaStore.js` (lines 181-227) — `_processTurnDoc`
  (atomic claim, validate, policy gate, dispatch, terminal writes)
* `src/bot/watchers/TurnOutboxWatcher.js` (BufferManager sections) —
  `push` / `_pushAllowed` timestamp coercion and item construction
* `src/lib/wsHub.js` — per-connection allowed-set management
  (`subscribe` narrowing and the live ACL-update callback)

JavaScript-specific semantics (string trimming, truthiness of `0`, `''` and
`null`, `new Set(...)` deduplication) are modelled explicitly.
-/

namespace CipWs

/-! ## JavaScript string primitives -/

/-- Trim whitespace from both ends of a character list
(front `dropWhile`, then back `dropWhile` through a reverse). -/
def trimL (l : List Char) : List Char :=
  ((l.dropWhile Char.isWhitespace).reverse.dropWhile Char.isWhitespace).reverse

/-- JS `String.prototype.trim`: drop whitespace at both ends. -/
def jsTrim (s : String) : String :=
  String.mk (trimL s.toList)

/-- JS `String.prototype.includes(c)` for a single character. -/
def containsChar (s : String) (c : Char) : Bool :=
  s.toList.contains c

/-- JS `s.replace(/[^\d]/g, '')`: keep only the ASCII digits. -/
def digitsOf (s : String) : List Char :=
  s.toList.filter Char.isDigit

/-- JS truthiness of an optional string: `null`/absent and `''` are falsy. -/
def strTruthy (s : Option String) : Bool :=
  s.getD "" ≠ ""

/-! ## contacts.js: normalizeChatId -/

/-- `normalizeChatId` from `src/lib/session/contacts.js` (lines 206-212):
trim; empty ⇒ null; contains `@` ⇒ pass through; else keep digits and
append `@c.us`, null when no digits remain. -/
def normalizeChatId (x : String) : Option String :=
  let s := jsTrim x
  if s = "" then none
  else if containsChar s '@' then some s
  else
    let digits := digitsOf s
    if digits.isEmpty then none else some (String.mk digits ++ "@c.us")

/-! ## Trim lemmas -/

theorem dropWhile_dropWhile {α : Type} (p : α → Bool) (l : List α) :
    (l.dropWhile p).dropWhile p = l.dropWhile p := by
  induction l with
  | nil => rfl
  | cons a t ih =>
    by_cases h : p a
    · simp [List.dropWhile_cons, h, ih]
    · simp [List.dropWhile_cons, h]

theorem dropWhile_of_head_false {α : Type} (p : α → Bool) (a : α) (l : List α)
    (h : p a = false) : (a :: l).dropWhile p = a :: l := by
  simp [List.dropWhile_cons, h]

theorem length_dropWhile_le {α : Type} (p : α → Bool) (l : List α) :
    (l.dropWhile p).length ≤ l.length := by
  induction l with
  | nil => simp
  | cons a t ih =>
    rw [List.dropWhile_cons]
    by_cases h : p a
    · rw [if_pos h]; simpa using Nat.le_succ_of_le ih
    · rw [if_neg h]

theorem head_false_of_dropWhile_fix {α : Type} (p : α → Bool) (a : α) (t : List α)
    (h : (a :: t).dropWhile p = a :: t) : p a = false := by
  cases hpa : p a
  · rfl
  · exfalso
    rw [List.dropWhile_cons, if_pos hpa] at h
    have hlen := congrArg List.length h
    have hle := length_dropWhile_le p t
    simp at hlen
    omega

/-- Back-trimming preserves a whitespace-free front. -/
theorem dropWhile_backTrim_fix {α : Type} (p : α → Bool) (l : List α)
    (h : l.dropWhile p = l) :
    ((l.reverse.dropWhile p).reverse).dropWhile p = (l.reverse.dropWhile p).reverse := by
  cases l with
  | nil => simp
  | cons a t =>
    have hpa : p a = false := head_false_of_dropWhile_fix p a t h
    have hrev : (a :: t).reverse = t.reverse ++ [a] := by simp
    rw [hrev, List.dropWhile_append]
    by_cases hemp : (t.reverse.dropWhile p).isEmpty
    · rw [if_pos hemp]
      simp [List.dropWhile_cons, hpa]
    · rw [if_neg hemp]
      rcases hdt : t.reverse.dropWhile p with _ | ⟨y, ys⟩
      · rw [hdt] at hemp; simp at hemp
      · rw [List.reverse_append]
        simp only [List.reverse_cons]
        exact dropWhile_of_head_false p a _ hpa

/-- `trimL` is idempotent. -/
theorem trimL_trimL (l : List Char) : trimL (trimL l) = trimL l := by
  unfold trimL
  set p := Char.isWhitespace
  have hfix : (l.dropWhile p).dropWhile p = l.dropWhile p := dropWhile_dropWhile p l
  -- step 1: the front of the trimmed list is clean
  have step1 : (((l.dropWhile p).reverse.dropWhile p).reverse).dropWhile p
      = ((l.dropWhile p).reverse.dropWhile p).reverse :=
    dropWhile_backTrim_fix p (l.dropWhile p) hfix
  rw [step1]
  -- step 2: the back is clean as well (it is itself a dropWhile result)
  have step2 : (((l.dropWhile p).reverse.dropWhile p).reverse).reverse.dropWhile p
      = ((l.dropWhile p).reverse.dropWhile p) := by
    rw [List.reverse_reverse]
    exact dropWhile_dropWhile p _
  rw [step2]

/-- Trimming is idempotent. -/
theorem jsTrim_jsTrim (s : String) : jsTrim (jsTrim s) = jsTrim s := by
  show String.mk (trimL (String.mk (trimL s.toList)).toList) = String.mk (trimL s.toList)
  have : (String.mk (trimL s.toList)).toList = trimL s.toList := rfl
  rw [this, trimL_trimL]

/-- A string none of whose characters are whitespace is unchanged by trim. -/
theorem jsTrim_of_no_whitespace (s : String)
    (h : ∀ c ∈ s.toList, c.isWhitespace = false) : jsTrim s = s := by
  have h1 : s.toList.dropWhile Char.isWhitespace = s.toList := by
    rcases hs : s.toList with _ | ⟨a, t⟩
    · simp
    · refine dropWhile_of_head_false _ a t (h a ?_)
      rw [hs]; exact List.mem_cons_self a t
  have h2 : s.toList.reverse.dropWhile Char.isWhitespace = s.toList.reverse := by
    rcases hs : s.toList.reverse with _ | ⟨a, t⟩
    · simp
    · refine dropWhile_of_head_false _ a t (h a ?_)
      have : a ∈ s.toList.reverse := by rw [hs]; exact List.mem_cons_self a t
      simpa using this
  have hlist : trimL s.toList = s.toList := by
    unfold trimL
    rw [h1, h2]; simp
  show String.mk (trimL s.toList) = s
  rw [hlist]
  rcases s with ⟨d⟩
  rfl

theorem digit_not_whitespace (c : Char) (h : c.isDigit = true) :
    c.isWhitespace = false := by
  simp only [Char.isDigit] at h
  simp only [Char.isWhitespace]
  rw [Bool.or_eq_false_iff, Bool.or_eq_false_iff, Bool.or_eq_false_iff]
  refine ⟨⟨⟨?_, ?_⟩, ?_⟩, ?_⟩ <;>
    · rw [decide_eq_false_iff_not]
      intro he
      subst he
      revert h
      decide

/-- Helper: the digits-branch output of `normalizeChatId` has no whitespace
and contains an `@`. -/
theorem digits_output_chars (digits : List Char)
    (hd : ∀ c ∈ digits, c.isDigit = true) :
    (∀ c ∈ (String.mk digits ++ "@c.us").toList, c.isWhitespace = false) ∧
      containsChar (String.mk digits ++ "@c.us") '@' = true := by
  have htl : (String.mk digits ++ "@c.us").toList = digits ++ "@c.us".toList := rfl
  constructor
  · intro c hc
    rw [htl] at hc
    rcases List.mem_append.mp hc with hc1 | hc2
    · exact digit_not_whitespace c (hd c hc1)
    · fin_cases hc2 <;> decide
  · simp only [containsChar, htl]
    have h2 : ('@' : Char) ∈ digits ++ "@c.us".toList := by
      refine List.mem_append.mpr (Or.inr ?_)
      decide
    simp [h2]

theorem string_mk_ne_empty_of_ne_nil (l : List Char) (h : l ≠ []) :
    String.mk l ≠ "" := by
  intro he
  have := congrArg String.toList he
  simp only [String.toList] at this
  exact h this

theorem digitsOf_empty : digitsOf "" = [] := rfl

/-- C8 (amended): `normalizeChatId` is idempotent on non-null results; an
input whose trimmed form is non-empty and contains `@` maps to its trimmed
form; any other input maps to the trimmed input's digits with `@c.us`
appended when at least one digit is present; in particular a non-empty
all-digit string maps to `digits ++ "@c.us"`. -/
theorem normalizeChatId_idem_and_digits :
    (∀ x r, normalizeChatId x = some r → normalizeChatId r = some r) ∧
    (∀ x, jsTrim x ≠ "" → containsChar (jsTrim x) '@' = true →
        normalizeChatId x = some (jsTrim x)) ∧
    (∀ x, containsChar (jsTrim x) '@' = false → digitsOf (jsTrim x) ≠ [] →
        normalizeChatId x = some (String.mk (digitsOf (jsTrim x)) ++ "@c.us")) ∧
    (∀ x, x ≠ "" → (∀ c ∈ x.toList, c.isDigit = true) →
        normalizeChatId x = some (x ++ "@c.us")) := by
  have hbranch2 : ∀ x, containsChar (jsTrim x) '@' = false →
      digitsOf (jsTrim x) ≠ [] →
      normalizeChatId x = some (String.mk (digitsOf (jsTrim x)) ++ "@c.us") := by
    intro x h2 h3
    have h1 : jsTrim x ≠ "" := by
      intro he
      rw [he, digitsOf_empty] at h3
      exact h3 rfl
    simp only [normalizeChatId, if_neg h1, h2, Bool.false_eq_true, if_false,
      List.isEmpty_iff, if_neg h3]
  refine ⟨?_, ?_, hbranch2, ?_⟩
  · -- idempotence
    intro x r h
    by_cases h1 : jsTrim x = ""
    · simp [normalizeChatId, h1] at h
    by_cases h2 : containsChar (jsTrim x) '@' = true
    · have hr : r = jsTrim x := by
        simp only [normalizeChatId, if_neg h1, h2, if_true, Option.some.injEq] at h
        exact h.symm
      have htr : jsTrim r = r := by rw [hr, jsTrim_jsTrim]
      have hr1 : r ≠ "" := by rw [hr]; exact h1
      have hr2 : containsChar r '@' = true := by rw [hr]; exact h2
      simp only [normalizeChatId, htr, if_neg hr1, hr2, if_true]
    · have h2f : containsChar (jsTrim x) '@' = false := by
        cases hc : containsChar (jsTrim x) '@'
        · rfl
        · exact absurd hc h2
      by_cases h3 : digitsOf (jsTrim x) = []
      · simp [normalizeChatId, if_neg h1, h2f, List.isEmpty_iff, h3] at h
      · have hr : r = String.mk (digitsOf (jsTrim x)) ++ "@c.us" := by
          have := hbranch2 x h2f h3
          rw [this] at h
          exact (Option.some.injEq _ _ ▸ h).symm
        have hd : ∀ c ∈ digitsOf (jsTrim x), c.isDigit = true := by
          intro c hc
          exact (List.mem_filter.mp hc).2
        obtain ⟨hnw, hat⟩ := digits_output_chars (digitsOf (jsTrim x)) hd
        have htr : jsTrim r = r := by
          rw [hr]; exact jsTrim_of_no_whitespace _ hnw
        have hrne : r ≠ "" := by
          rw [hr]
          have : (String.mk (digitsOf (jsTrim x)) ++ "@c.us") =
              String.mk (digitsOf (jsTrim x) ++ "@c.us".toList) := rfl
          rw [this]
          apply string_mk_ne_empty_of_ne_nil
          simp
        have hr2 : containsChar r '@' = true := by
          rw [hr]; exact hat
        simp only [normalizeChatId, htr, if_neg hrne, hr2, if_true]
  · -- '@' branch
    intro x h1 h2
    simp only [normalizeChatId, if_neg h1, h2, if_true]
  · -- all-digit inputs
    intro x hne hd
    have hnw : ∀ c ∈ x.toList, c.isWhitespace = false := fun c hc =>
      digit_not_whitespace c (hd c hc)
    have htr : jsTrim x = x := jsTrim_of_no_whitespace x hnw
    have hat : containsChar x '@' = false := by
      cases hc : containsChar x '@'
      · rfl
      · exfalso
        have hmem : ('@' : Char) ∈ x.toList := by
          simp only [containsChar] at hc
          exact List.elem_iff.mp hc
        have := hd '@' hmem
        exact absurd this (by decide)
    have hdig : digitsOf x = x.toList := by
      simp only [digitsOf]
      exact List.filter_eq_self.mpr hd
    have hxne : digitsOf (jsTrim x) ≠ [] := by
      rw [htr, hdig]
      intro he
      apply hne
      rcases x with ⟨d⟩
      simp only [String.toList] at he
      rw [he]
    have := hbranch2 x (by rw [htr]; exact hat) hxne
    rw [htr, hdig] at this
    rw [this]
    rcases x with ⟨d⟩
    rfl

/-- Witness for C8: the amended theorem applied to the digit string "52". -/
theorem normalizeChatId_idem_and_digits_witness :
    normalizeChatId "52" = some "52@c.us" :=
  normalizeChatId_idem_and_digits.2.2.2 "52" (by decide) (by decide)

/-- Counterexample to C8 as stated: an input containing `@` is NOT returned
unchanged (it is trimmed first), and a digit-free input yields null rather
than `"@c.us"`. -/
theorem normalizeChatId_claim_counterexample :
    normalizeChatId " 5@c.us " = some "5@c.us" ∧
      ("5@c.us" : String) ≠ " 5@c.us " ∧
      containsChar " 5@c.us " '@' = true ∧
      normalizeChatId "abc" = none := by
  refine ⟨?_, ?_, ?_, ?_⟩ <;> decide

/-! ## MessageHints.js -/

/-- JS `String.prototype.toLowerCase`, character by character. -/
def jsToLower (s : String) : String :=
  String.mk (s.toList.map Char.toLower)

/-- Is `w` a prefix of `l` (character lists). -/
def startsL : List Char → List Char → Bool
  | [], _ => true
  | _ :: _, [] => false
  | a :: as, b :: bs => a == b && startsL as bs

/-- Does `l` contain `w` as a contiguous run (JS `String.prototype.includes`). -/
def includesL (w : List Char) : List Char → Bool
  | [] => startsL w []
  | l@(_ :: t) => startsL w l || includesL w t

/-- JS `s.includes(w)` for strings. -/
def strIncludes (s w : String) : Bool :=
  includesL w.toList s.toList

/-- `isFinalizer` from `src/bot/buffer/TurnAssembler.js` (MessageHints
section, lines 65-69): case-insensitive substring match against the
configured finalizer list. -/
def isFinalizer (text : String) (finalizerWords : List String) : Bool :=
  let s := jsToLower text
  if s = "" then false
  else finalizerWords.any (fun w => strIncludes s w)

/-- Configuration lists for explicit-modality detection. -/
structure ExplicitCfg where
  voicePhrases : List String := []
  textPhrases : List String := []
deriving DecidableEq, Repr

/-- `explicitModality` (MessageHints section, lines 71-77): voice phrases
first, then text phrases; null otherwise. -/
def explicitModality (text : String) (cfg : ExplicitCfg) : Option String :=
  let s := jsToLower text
  if s = "" then none
  else if cfg.voicePhrases.any (fun p => strIncludes s p) then some "voice"
  else if cfg.textPhrases.any (fun p => strIncludes s p) then some "text"
  else none

/-- The character class of `/[áéíóúñ¿¡]/i`: the Spanish accent and
punctuation characters, in both cases (the `i` flag case-folds). -/
def spanishChars : List Char :=
  ['á', 'é', 'í', 'ó', 'ú', 'ñ', '¿', '¡', 'Á', 'É', 'Í', 'Ó', 'Ú', 'Ñ']

/-- `guessLang` (MessageHints section, lines 80-85): `'es-MX'` when an
accented vowel or Spanish punctuation character occurs, else null. -/
def guessLang (text : String) : Option String :=
  if text = "" then none
  else if text.toList.any (fun c => spanishChars.contains c) then some "es-MX"
  else none

/-! ## TurnAssembler.js -/

/-- A buffered item: text, or a voice reference (gcsUri, contentType,
filename). -/
inductive ItemKind where
  | text (s : String)
  | voice (gcsUri contentType filename : String)
deriving DecidableEq, Repr

structure Item where
  ts : Int
  kind : ItemKind
deriving DecidableEq, Repr

def itemTypeName : ItemKind → String
  | .text _ => "text"
  | .voice _ _ _ => "voice"

/-- Push the running short-text accumulator as one text item, if non-empty. -/
def flushBuf (ts : Int) (buf : String) : List Item :=
  if buf = "" then [] else [⟨ts, ItemKind.text buf⟩]

/-- The merge loop of `assembleTurn` (TurnAssembler.js lines 14-35): short
trimmed texts (≤ 14 chars) join the accumulator with single spaces; longer
texts and non-text items flush the accumulator and are appended; a trailing
accumulator is flushed at `closedAt`. -/
def mergeItems (closedAt : Int) : List Item → String → List Item
  | [], buf => flushBuf closedAt buf
  | it :: rest, buf =>
    match it.kind with
    | .text s =>
      let t := jsTrim s
      if t = "" then mergeItems closedAt rest buf
      else if t.length ≤ 14 then
        mergeItems closedAt rest (if buf = "" then t else buf ++ " " ++ t)
      else
        flushBuf it.ts buf ++ ⟨it.ts, ItemKind.text t⟩ :: mergeItems closedAt rest ""
    | .voice _ _ _ =>
      flushBuf it.ts buf ++ it :: mergeItems closedAt rest ""

/-- Stable ascending sort by `ts` (`[...items].sort((a,b) => a.ts - b.ts)`;
JS `Array.prototype.sort` is stable). -/
def sortByTs (items : List Item) : List Item :=
  items.mergeSort (fun a b => decide (a.ts ≤ b.ts))

structure Meta where
  accountId : String
  label : String
  chatId : String
deriving DecidableEq, Repr

structure MetaOut where
  accountId : String
  label : String
  chatId : String
  windowId : String
deriving DecidableEq, Repr

structure Hints where
  lastInbound : String
  explicit : Option String
  lang : Option String
deriving DecidableEq, Repr

structure AssembledTurn where
  windowId : String
  openedAt : Int
  closedAt : Int
  meta : MetaOut
  hints : Hints
  items : List Item
deriving DecidableEq, Repr

/-- The boundary timestamp of a turn: `ordered[i].ts || Date.now()`
(JS `||`: a `0` or missing `ts` falls back to `now`). -/
def boundaryTs (now : Int) : Option Item → Int
  | some it => if it.ts = 0 then now else it.ts
  | none => now

/-- `assembleTurn` from `src/bot/buffer/TurnAssembler.js` (lines 6-61).
Empty item lists throw (modelled as `none`).  `openedAt`/`closedAt` take
`Date.now()` when the boundary `ts` is `0` (JS `|| Date.now()`), and
`hints.lang` applies the `'es-MX'` default itself
(`guessLang(textsOnly) || 'es-MX'`). -/
def assembleTurn (items : List Item) (meta : Meta) (cfg : ExplicitCfg)
    (now : Int) : Option AssembledTurn :=
  match items with
  | [] => none
  | _ :: _ =>
    let ordered := sortByTs items
    let openedAt := boundaryTs now ordered.head?
    let closedAt := boundaryTs now ordered.getLast?
    let out := mergeItems closedAt ordered ""
    let textsOnly := String.intercalate " "
      (out.filterMap (fun i => match i.kind with
        | .text s => some s
        | _ => none))
    let explicit := out.foldl (fun acc i => match i.kind with
      | .text s => match acc with
        | some v => some v
        | none => explicitModality s cfg
      | _ => acc) none
    let lastInbound := match out.getLast? with
      | some it => itemTypeName it.kind
      | none => "text"
    let lang := some ((guessLang textsOnly).getD "es-MX")
    let windowId := meta.accountId ++ "." ++ meta.label ++ "." ++
      meta.chatId ++ "." ++ toString openedAt
    some { windowId := windowId
           openedAt := openedAt
           closedAt := closedAt
           meta := ⟨meta.accountId, meta.label, meta.chatId, windowId⟩
           hints := ⟨lastInbound, explicit, lang⟩
           items := out }

/-- `guessLang` only ever produces `'es-MX'` or null. -/
theorem guessLang_cases (s : String) :
    guessLang s = none ∨ guessLang s = some "es-MX" := by
  unfold guessLang
  by_cases h1 : s = ""
  · rw [if_pos h1]; exact Or.inl rfl
  · rw [if_neg h1]
    by_cases h2 : s.toList.any (fun c => spanishChars.contains c) = true
    · rw [if_pos h2]; exact Or.inr rfl
    · rw [if_neg h2]; exact Or.inl rfl

/-- C5 (amended): `guessLang` alone returns `'es-MX'` exactly when an
accented vowel or Spanish punctuation character (either case) occurs, and
null otherwise; but `assembleTurn` resolves the null default itself
(`guessLang(textsOnly) || 'es-MX'`), so `hints.lang` equals `'es-MX'` for
every assembled turn. -/
theorem assembleTurn_lang_always_esMX :
    (∀ items meta cfg now t, assembleTurn items meta cfg now = some t →
        t.hints.lang = some "es-MX") ∧
    (∀ s, guessLang s = some "es-MX" ↔
        s.toList.any (fun c => spanishChars.contains c) = true) ∧
    (∀ s, guessLang s = none ↔
        s.toList.any (fun c => spanishChars.contains c) = false) := by
  refine ⟨?_, ?_, ?_⟩
  · intro items meta cfg now t h
    cases items with
    | nil => simp [assembleTurn] at h
    | cons a rest =>
      simp only [assembleTurn, Option.some.injEq] at h
      rw [← h]
      show some ((guessLang _).getD "es-MX") = some "es-MX"
      rcases guessLang_cases (String.intercalate " "
          ((mergeItems _ (sortByTs (a :: rest)) "").filterMap _)) with hg | hg <;>
        rw [hg] <;> rfl
  · intro s
    constructor
    · intro h
      unfold guessLang at h
      by_cases h1 : s = ""
      · rw [if_pos h1] at h; exact absurd h (by simp)
      · rw [if_neg h1] at h
        by_cases h2 : s.toList.any (fun c => spanishChars.contains c) = true
        · exact h2
        · rw [if_neg h2] at h; exact absurd h (by simp)
    · intro h
      have h1 : s ≠ "" := by
        intro he
        rw [he] at h
        simp at h
      unfold guessLang
      rw [if_neg h1, if_pos h]
  · intro s
    constructor
    · intro h
      cases hval : s.toList.any (fun c => spanishChars.contains c)
      · rfl
      · exfalso
        unfold guessLang at h
        by_cases h1 : s = ""
        · rw [h1] at hval; simp at hval
        · rw [if_neg h1, if_pos hval] at h
          exact absurd h (by simp)
    · intro h
      unfold guessLang
      by_cases h1 : s = ""
      · rw [if_pos h1]
      · rw [if_neg h1,
          if_neg (show ¬(s.toList.any (fun c => spanishChars.contains c) = true)
            from by rw [h]; exact Bool.false_ne_true)]

/-- Witness for C5: a concrete assembled turn whose `hints.lang` is
`'es-MX'`. -/
theorem assembleTurn_lang_witness :
    ∃ t, assembleTurn [⟨1, ItemKind.text "hola"⟩] ⟨"a", "l", "c"⟩ ⟨[], []⟩ 0
        = some t ∧ t.hints.lang = some "es-MX" := by
  rcases hh : assembleTurn [⟨1, ItemKind.text "hola"⟩] ⟨"a", "l", "c"⟩
      ⟨[], []⟩ 0 with _ | t
  · exact absurd hh (by simp [assembleTurn])
  · exact ⟨t, rfl, assembleTurn_lang_always_esMX.1 _ _ _ _ t hh⟩

/-- Counterexample to C5 as stated: a turn whose concatenated text contains
no accented vowel or Spanish punctuation still gets `hints.lang = 'es-MX'`
(never null). -/
theorem assembleTurn_lang_counterexample :
    (assembleTurn [⟨1, ItemKind.text "hello"⟩] ⟨"a", "l", "c"⟩ ⟨[], []⟩
        0).map (fun t => t.hints.lang) = some (some "es-MX") ∧
      guessLang "hello" = none := by
  constructor
  · simp only [assembleTurn, sortByTs, List.mergeSort_singleton]
    decide
  · decide

/-! ## Ordering lemmas for assembleTurn (claim C4) -/

/-- The `ts` comparison used throughout. -/
def tsLE (a b : Item) : Prop := a.ts ≤ b.ts

theorem sortByTs_sorted (l : List Item) : (sortByTs l).Pairwise tsLE := by
  have h := @List.sorted_mergeSort Item
    (fun a b : Item => decide (a.ts ≤ b.ts))
    (fun a b c hab hbc => by
      simp only [decide_eq_true_eq] at *
      omega)
    (fun a b => by
      simp only [Bool.or_eq_true, decide_eq_true_eq]
      omega) l
  exact h.imp (fun {a b} hab => by
    simp only [decide_eq_true_eq] at hab
    exact hab)

theorem mem_sortByTs (x : Item) (l : List Item) : x ∈ sortByTs l ↔ x ∈ l := by
  unfold sortByTs
  exact List.mem_mergeSort

theorem sortByTs_stable (l : List Item) (a b : Item)
    (hab : a.ts ≤ b.ts) (h : List.Sublist [a, b] l) :
    List.Sublist [a, b] (sortByTs l) := by
  unfold sortByTs
  exact List.pair_sublist_mergeSort
    (fun x y z hxy hyz => by
      simp only [decide_eq_true_eq] at *
      omega)
    (fun x y => by
      simp only [Bool.or_eq_true, decide_eq_true_eq]
      omega)
    (by simpa using hab) h

theorem pairwise_le_getLast :
    ∀ (l : List Item), l.Pairwise tsLE → ∀ x ∈ l, ∀ (hne : l ≠ []),
      x.ts ≤ (l.getLast hne).ts := by
  intro l
  induction l with
  | nil => intro _ x hx; exact absurd hx (List.not_mem_nil x)
  | cons a t ih =>
    intro hp x hx hne
    rcases List.pairwise_cons.mp hp with ⟨hhead, htail⟩
    cases t with
    | nil =>
      rcases List.mem_singleton.mp hx with rfl
      simp [List.getLast]
    | cons b t' =>
      have hgl : (a :: b :: t').getLast hne = (b :: t').getLast (by simp) := by
        simp [List.getLast]
      rw [hgl]
      rcases List.mem_cons.mp hx with rfl | hx'
      · have hmem := List.getLast_mem (show (b :: t') ≠ [] by simp)
        exact hhead _ hmem
      · exact ih htail x hx' (by simp)

theorem mem_flushBuf (ts : Int) (buf : String) (o : Item)
    (h : o ∈ flushBuf ts buf) : o.ts = ts := by
  unfold flushBuf at h
  split at h
  · exact absurd h (List.not_mem_nil o)
  · rcases List.mem_singleton.mp h with rfl
    rfl

theorem pairwise_flushBuf (ts : Int) (buf : String) :
    (flushBuf ts buf).Pairwise tsLE := by
  unfold flushBuf
  split
  · exact List.Pairwise.nil
  · simp

/-- Invariant of the merge loop: on a sorted input bounded below by `lb`
and above by `closedAt`, the output is sorted and bounded below by `lb`. -/
theorem mergeItems_sorted (closedAt : Int) :
    ∀ (l : List Item) (buf : String) (lb : Int),
      l.Pairwise tsLE →
      (∀ it ∈ l, lb ≤ it.ts) →
      (∀ it ∈ l, it.ts ≤ closedAt) →
      lb ≤ closedAt →
      (mergeItems closedAt l buf).Pairwise tsLE ∧
        ∀ o ∈ mergeItems closedAt l buf, lb ≤ o.ts := by
  intro l
  induction l with
  | nil =>
    intro buf lb _ _ _ hlbc
    constructor
    · exact pairwise_flushBuf closedAt buf
    · intro o ho
      rw [mem_flushBuf closedAt buf o ho]
      exact hlbc
  | cons it rest ih =>
    intro buf lb hp hlb hub hlbc
    rcases List.pairwise_cons.mp hp with ⟨hhead, htail⟩
    have hlbrest : ∀ x ∈ rest, lb ≤ x.ts := fun x hx => hlb x (List.mem_cons_of_mem _ hx)
    have hubrest : ∀ x ∈ rest, x.ts ≤ closedAt := fun x hx => hub x (List.mem_cons_of_mem _ hx)
    have hitlb : lb ≤ it.ts := hlb it (List.mem_cons_self _ _)
    have hitub : it.ts ≤ closedAt := hub it (List.mem_cons_self _ _)
    -- the flush-and-append case shared by long texts and voice items
    have appendCase : ∀ (x : Item), x.ts = it.ts →
        (flushBuf it.ts buf ++ x :: mergeItems closedAt rest "").Pairwise tsLE ∧
          ∀ o ∈ flushBuf it.ts buf ++ x :: mergeItems closedAt rest "", lb ≤ o.ts := by
      intro x hx
      have hrec := ih "" it.ts htail hhead hubrest hitub
      constructor
      · rw [List.pairwise_append]
        refine ⟨pairwise_flushBuf _ _, ?_, ?_⟩
        · rw [List.pairwise_cons]
          refine ⟨?_, hrec.1⟩
          intro b hb
          have := hrec.2 b hb
          unfold tsLE
          omega
        · intro a ha b hb
          have ha' : a.ts = it.ts := mem_flushBuf _ _ a ha
          rcases List.mem_cons.mp hb with rfl | hb'
          · unfold tsLE; omega
          · have := hrec.2 b hb'
            unfold tsLE
            omega
      · intro o ho
        rcases List.mem_append.mp ho with ho1 | ho2
        · have := mem_flushBuf _ _ o ho1
          omega
        · rcases List.mem_cons.mp ho2 with rfl | ho3
          · omega
          · have := hrec.2 o ho3
            omega
    obtain ⟨ts0, kind0⟩ := it
    cases kind0 with
    | text s =>
      by_cases ht : jsTrim s = ""
      · have heq : mergeItems closedAt (⟨ts0, ItemKind.text s⟩ :: rest) buf
            = mergeItems closedAt rest buf := by
          simp only [mergeItems, ht, if_pos]
        rw [heq]
        exact ih buf lb htail hlbrest hubrest hlbc
      · by_cases hlen : (jsTrim s).length ≤ 14
        · have heq : mergeItems closedAt (⟨ts0, ItemKind.text s⟩ :: rest) buf
              = mergeItems closedAt rest
                  (if buf = "" then jsTrim s else buf ++ " " ++ jsTrim s) := by
            simp only [mergeItems, ht, hlen, if_neg, if_pos, if_true, if_false]
          rw [heq]
          exact ih _ lb htail hlbrest hubrest hlbc
        · have heq : mergeItems closedAt (⟨ts0, ItemKind.text s⟩ :: rest) buf
              = flushBuf ts0 buf ++ ⟨ts0, ItemKind.text (jsTrim s)⟩ ::
                  mergeItems closedAt rest "" := by
            simp only [mergeItems, ht, hlen, if_neg, if_false]
          rw [heq]
          exact appendCase ⟨ts0, ItemKind.text (jsTrim s)⟩ rfl
    | voice g c f =>
      have heq : mergeItems closedAt (⟨ts0, ItemKind.voice g c f⟩ :: rest) buf
          = flushBuf ts0 buf ++ ⟨ts0, ItemKind.voice g c f⟩ ::
              mergeItems closedAt rest "" := by
        simp only [mergeItems]
      rw [heq]
      exact appendCase ⟨ts0, ItemKind.voice g c f⟩ rfl

/-- The accumulator fold used by the merge loop:
`buf = buf ? buf + " " + t : t` over a list of texts. -/
def joinAcc (buf : String) (ts : List String) : String :=
  ts.foldl (fun b t => if b = "" then t else b ++ " " ++ t) buf

theorem append_space_ne_empty (b t : String) : b ++ " " ++ t ≠ "" := by
  intro he
  have := congrArg String.length he
  simp [String.length_append] at this
  exact absurd this.1.2 (by decide)

theorem joinAcc_go (ts : List String) : ∀ b, b ≠ "" →
    joinAcc b ts = String.intercalate.go b " " ts := by
  induction ts with
  | nil => intro b _; rfl
  | cons a as ih =>
    intro b hb
    have h1 : joinAcc b (a :: as) = joinAcc (b ++ " " ++ a) as := by
      simp only [joinAcc, List.foldl_cons, if_neg hb]
    rw [h1, ih _ (append_space_ne_empty b a)]
    rfl

theorem joinAcc_ne_empty (ts : List String) : ∀ b, b ≠ "" → joinAcc b ts ≠ "" := by
  induction ts with
  | nil => intro b hb; exact hb
  | cons a as ih =>
    intro b hb
    have h1 : joinAcc b (a :: as) = joinAcc (b ++ " " ++ a) as := by
      simp only [joinAcc, List.foldl_cons, if_neg hb]
    rw [h1]
    exact ih _ (append_space_ne_empty b a)

theorem joinAcc_intercalate (ts : List String) (t0 : String) (h0 : t0 ≠ "") :
    joinAcc "" (t0 :: ts) = String.intercalate " " (t0 :: ts) := by
  have h1 : joinAcc "" (t0 :: ts) = joinAcc t0 ts := by
    simp [joinAcc]
  rw [h1, joinAcc_go ts t0 h0]
  rfl

/-- A run of short, non-blank texts merges into the single accumulator. -/
theorem mergeItems_all_short (closedAt : Int) :
    ∀ (ps : List (Int × String)) (buf : String),
      (∀ p ∈ ps, jsTrim p.2 ≠ "" ∧ (jsTrim p.2).length ≤ 14) →
      mergeItems closedAt (ps.map (fun p => ⟨p.1, ItemKind.text p.2⟩)) buf
        = flushBuf closedAt (joinAcc buf (ps.map (fun p => jsTrim p.2))) := by
  intro ps
  induction ps with
  | nil => intro buf _; rfl
  | cons p ps ih =>
    intro buf hs
    obtain ⟨hne, hlen⟩ := hs p (List.mem_cons_self _ _)
    have hrest : ∀ q ∈ ps, jsTrim q.2 ≠ "" ∧ (jsTrim q.2).length ≤ 14 :=
      fun q hq => hs q (List.mem_cons_of_mem _ hq)
    have h1 : mergeItems closedAt
        ((p :: ps).map (fun q => (⟨q.1, ItemKind.text q.2⟩ : Item))) buf
        = mergeItems closedAt (ps.map (fun q => ⟨q.1, ItemKind.text q.2⟩))
            (if buf = "" then jsTrim p.2 else buf ++ " " ++ jsTrim p.2) := by
      simp only [List.map_cons, mergeItems, hne, hlen, if_neg, if_pos, if_true, if_false]
    have h2 : joinAcc buf ((p :: ps).map (fun q => jsTrim q.2))
        = joinAcc (if buf = "" then jsTrim p.2 else buf ++ " " ++ jsTrim p.2)
            (ps.map (fun q => jsTrim q.2)) := by
      by_cases hb : buf = ""
      · simp only [joinAcc, List.map_cons, List.foldl_cons, if_pos hb, hb]
      · simp only [joinAcc, List.map_cons, List.foldl_cons, if_neg hb]
    rw [h1, h2]
    exact ih _ hrest

/-- C4: items are stably sorted by `ts`; consecutive short non-blank texts
merge into one space-joined text item; the assembled items are ascending in
`ts`; assembly succeeds exactly on non-empty inputs. (`ts` values are epoch
milliseconds, hence the non-negativity hypotheses.) -/
theorem assembleTurn_order_and_merge :
    (∀ items meta cfg now t, (∀ it ∈ items, 0 ≤ it.ts) → 0 ≤ now →
        assembleTurn items meta cfg now = some t →
        List.Chain' (fun a b : Item => a.ts ≤ b.ts) t.items) ∧
    (∀ items meta cfg now, (assembleTurn items meta cfg now).isSome ↔ items ≠ []) ∧
    (∀ closedAt (t0 : Int × String) (ps : List (Int × String)),
        (∀ p ∈ t0 :: ps, jsTrim p.2 ≠ "" ∧ (jsTrim p.2).length ≤ 14) →
        mergeItems closedAt ((t0 :: ps).map (fun p => ⟨p.1, ItemKind.text p.2⟩)) ""
          = [⟨closedAt, ItemKind.text (String.intercalate " "
              ((t0 :: ps).map (fun p => jsTrim p.2)))⟩]) ∧
    (∀ items (a b : Item), List.Sublist [a, b] items → a.ts ≤ b.ts →
        List.Sublist [a, b] (sortByTs items)) := by
  refine ⟨?_, ?_, ?_, ?_⟩
  · intro items meta cfg now t h0 hnow h
    cases items with
    | nil => simp [assembleTurn] at h
    | cons a rest =>
      simp only [assembleTurn, Option.some.injEq] at h
      have hperm := List.mergeSort_perm (a :: rest)
        (fun a b : Item => decide (a.ts ≤ b.ts))
      have hone : sortByTs (a :: rest) ≠ [] := by
        intro he
        unfold sortByTs at he
        rw [he] at hperm
        have := hperm.length_eq
        simp at this
      have hsorted := sortByTs_sorted (a :: rest)
      have hlb0 : ∀ x ∈ sortByTs (a :: rest), 0 ≤ x.ts := by
        intro x hx
        exact h0 x ((mem_sortByTs x (a :: rest)).mp hx)
      have hubAll : ∀ x ∈ sortByTs (a :: rest), x.ts ≤
          boundaryTs now (sortByTs (a :: rest)).getLast? := by
        intro x hx
        rw [List.getLast?_eq_getLast _ hone]
        have hle := pairwise_le_getLast _ hsorted x hx hone
        simp only [boundaryTs]
        by_cases hz : ((sortByTs (a :: rest)).getLast hone).ts = 0
        · rw [if_pos hz]
          unfold tsLE at hle
          omega
        · rw [if_neg hz]
          exact hle
      have hc0 : 0 ≤ boundaryTs now (sortByTs (a :: rest)).getLast? := by
        rw [List.getLast?_eq_getLast _ hone]
        simp only [boundaryTs]
        by_cases hz : ((sortByTs (a :: rest)).getLast hone).ts = 0
        · rw [if_pos hz]; exact hnow
        · rw [if_neg hz]
          exact hlb0 _ (List.getLast_mem hone)
      have hmain := mergeItems_sorted
        (boundaryTs now (sortByTs (a :: rest)).getLast?)
        (sortByTs (a :: rest)) "" 0 hsorted hlb0 hubAll hc0
      rw [← h]
      exact hmain.1.chain'
  · intro items meta cfg now
    cases items with
    | nil => simp [assembleTurn]
    | cons a rest => simp [assembleTurn]
  · intro closedAt t0 ps hs
    rw [mergeItems_all_short closedAt (t0 :: ps) "" hs]
    have h0 : jsTrim t0.2 ≠ "" := (hs t0 (List.mem_cons_self _ _)).1
    rw [List.map_cons, joinAcc_intercalate _ _ h0]
    have hstep : String.intercalate " " (jsTrim t0.2 :: ps.map (fun q => jsTrim q.2))
        = joinAcc (jsTrim t0.2) (ps.map (fun q => jsTrim q.2)) := by
      rw [← joinAcc_intercalate _ _ h0]
      simp [joinAcc]
    have hne2 : String.intercalate " "
        (jsTrim t0.2 :: ps.map (fun q => jsTrim q.2)) ≠ "" := by
      rw [hstep]
      exact joinAcc_ne_empty _ _ h0
    unfold flushBuf
    rw [if_neg hne2]
  · intro items a b hsub hab
    exact sortByTs_stable items a b hab hsub

/-- Witness for C4: two short texts merge into one space-joined item. -/
theorem assembleTurn_order_and_merge_witness :
    mergeItems 9 ([((5 : Int), "hola"), ((9 : Int), "que tal")].map
        (fun p => (⟨p.1, ItemKind.text p.2⟩ : Item))) ""
      = [⟨9, ItemKind.text "hola que tal"⟩] := by
  rw [assembleTurn_order_and_merge.2.2.1 9 ((5 : Int), "hola")
    [((9 : Int), "que tal")] (by decide)]
  decide

/-! ## BotPolicy.js -/

/-- Raw contents of the `bot` field on `/accounts/{aid}/sessions/{label}`. -/
structure BotRaw where
  enabled : Option Bool := none
  receiveFromBots : Option Bool := none
  mode : Option String := none
  allowlist : Option (List String) := none
  blocklist : Option (List String) := none
deriving DecidableEq, Repr

structure SessionView where
  enabled : Bool
  receiveFromBots : Bool
  mode : String
  allowlist : List String
  blocklist : List String
deriving DecidableEq, Repr

/-- `_getSession` data shaping (BotPolicy.js lines 30-38): defaults
`enabled = bot.enabled !== false`, `receiveFromBots = bot.receiveFromBots
=== true`, `mode = bot.mode || 'all'`, lists default empty.  A missing doc
behaves as an empty `bot`. -/
def sessionViewOf (raw : Option BotRaw) : SessionView :=
  let bot := raw.getD {}
  { enabled := !(bot.enabled == some false)
    receiveFromBots := bot.receiveFromBots == some true
    mode := if bot.mode.getD "" = "" then "all" else bot.mode.getD ""
    allowlist := bot.allowlist.getD []
    blocklist := bot.blocklist.getD [] }

/-- Raw per-chat settings fields (`botEnabled` only when it is a real
boolean, mirroring the `typeof === 'boolean'` check). -/
structure ChatRaw where
  botEnabled : Option Bool := none
  preferredModality : Option String := none
deriving DecidableEq, Repr

structure ChatData where
  botEnabled : Option Bool := none
  preferredModality : Option String := none
deriving DecidableEq, Repr

def chatDataOf (raw : ChatRaw) : ChatData :=
  { botEnabled := raw.botEnabled
    preferredModality :=
      if raw.preferredModality.getD "" = "" then none else raw.preferredModality }

/-- `_getChat` (BotPolicy.js lines 44-79): read
`/threads/{chatId}/settings/__root__`; when absent fall back to the thread
doc; any read failure is caught (`catch { data = {} }`) and yields the
empty, permissive view. -/
def getChatData (settingsRead threadRead : Except Unit (Option ChatRaw)) :
    ChatData :=
  match settingsRead with
  | .error _ => {}
  | .ok (some raw) => chatDataOf raw
  | .ok none =>
    match threadRead with
    | .error _ => {}
    | .ok (some raw) => chatDataOf raw
    | .ok none => {}

/-- `_getSelfWaIds` (BotPolicy.js lines 81-89): the non-empty `waId` strings
over the account's session docs. -/
def selfWaIdsOf (docs : List (Option String)) : List String :=
  (docs.map (fun d => d.getD "")).filter (fun s => s != "")

/-- The mode-filter and per-chat-override checks shared verbatim by
`allowProcess` and `allowSend` (BotPolicy.js lines 102-114 and 121-132):
an `allowlist` mode filters only when the allowlist is non-empty; a
`blocklist` mode blocks listed chats; a chat view with `botEnabled=false`
denies. -/
def modeChatTail (sess : SessionView) (chat : ChatData) (chatId : String) :
    Except Unit Bool :=
  if sess.mode == "allowlist" && !sess.allowlist.isEmpty
      && !sess.allowlist.contains chatId then .ok false
  else if sess.mode == "blocklist" && !sess.blocklist.isEmpty
      && sess.blocklist.contains chatId then .ok false
  else if chat.botEnabled == some false then .ok false
  else .ok true

/-- `allowProcess` (BotPolicy.js lines 92-115), with the document reads
passed in as `Except` oracles (a `.error` read models a rejected promise,
which propagates out of the function). -/
def allowProcess (sessRead : Except Unit (Option BotRaw))
    (selfRead : Except Unit (List (Option String)))
    (settingsRead threadRead : Except Unit (Option ChatRaw))
    (chatId senderWaId : String) : Except Unit Bool :=
  match sessRead with
  | .error e => .error e
  | .ok raw =>
    let sess := sessionViewOf raw
    if !sess.enabled then .ok false
    else
      let loopGuard : Except Unit Bool :=
        if !sess.receiveFromBots && senderWaId != "" then
          match selfRead with
          | .error e => .error e
          | .ok docs =>
            if (selfWaIdsOf docs).contains senderWaId then .ok false else .ok true
        else .ok true
      match loopGuard with
      | .error e => .error e
      | .ok false => .ok false
      | .ok true => modeChatTail sess (getChatData settingsRead threadRead) chatId

/-- `allowSend` (BotPolicy.js lines 118-133): `allowProcess` minus the
self-ID loop guard. -/
def allowSend (sessRead : Except Unit (Option BotRaw))
    (settingsRead threadRead : Except Unit (Option ChatRaw))
    (chatId : String) : Except Unit Bool :=
  match sessRead with
  | .error e => .error e
  | .ok raw =>
    let sess := sessionViewOf raw
    if !sess.enabled then .ok false
    else modeChatTail sess (getChatData settingsRead threadRead) chatId

theorem selfWaIds_ne_empty (docs : List (Option String)) (s : String)
    (hs : s ∈ selfWaIdsOf docs) : s ≠ "" := by
  unfold selfWaIdsOf at hs
  have h := (List.mem_filter.mp hs).2
  simpa using h

theorem modeChatTail_ok_and_iff (sv : SessionView) (cd : ChatData)
    (chatId : String) :
    (∃ b, modeChatTail sv cd chatId = Except.ok b) ∧
    (modeChatTail sv cd chatId = Except.ok true ↔
      ((sv.mode = "allowlist" → sv.allowlist ≠ [] → chatId ∈ sv.allowlist) ∧
        (sv.mode = "blocklist" → chatId ∉ sv.blocklist) ∧
        cd.botEnabled ≠ some false)) := by
  unfold modeChatTail
  by_cases hA : (sv.mode == "allowlist" && !sv.allowlist.isEmpty
      && !sv.allowlist.contains chatId) = true
  · rw [if_pos hA]
    simp only [Bool.and_eq_true, beq_iff_eq, Bool.not_eq_true',
      List.isEmpty_eq_false] at hA
    obtain ⟨⟨hm, hne⟩, hnc⟩ := hA
    refine ⟨⟨false, rfl⟩, ?_, ?_⟩
    · intro habs; exact absurd habs (by simp)
    · rintro ⟨p3, -, -⟩
      have := p3 hm hne
      rw [List.contains_eq_any_beq] at hnc
      have hmem : chatId ∈ sv.allowlist := this
      have : sv.allowlist.any (fun x => chatId == x) = true := by
        rw [List.any_eq_true]
        exact ⟨chatId, hmem, by simp⟩
      rw [this] at hnc
      exact absurd hnc (by simp)
  · rw [if_neg hA]
    by_cases hB : (sv.mode == "blocklist" && !sv.blocklist.isEmpty
        && sv.blocklist.contains chatId) = true
    · rw [if_pos hB]
      simp only [Bool.and_eq_true, beq_iff_eq, Bool.not_eq_true',
        List.isEmpty_eq_false] at hB
      obtain ⟨⟨hm, -⟩, hc⟩ := hB
      refine ⟨⟨false, rfl⟩, ?_, ?_⟩
      · intro habs; exact absurd habs (by simp)
      · rintro ⟨-, p4, -⟩
        have hmem : chatId ∈ sv.blocklist := by
          rw [List.contains_eq_any_beq, List.any_eq_true] at hc
          obtain ⟨x, hx, hbe⟩ := hc
          rw [beq_iff_eq] at hbe
          rw [hbe]; exact hx
        exact absurd hmem (p4 hm)
    · rw [if_neg hB]
      by_cases hC : (cd.botEnabled == some false) = true
      · rw [if_pos hC]
        rw [beq_iff_eq] at hC
        refine ⟨⟨false, rfl⟩, ?_, ?_⟩
        · intro habs; exact absurd habs (by simp)
        · rintro ⟨-, -, p5⟩
          exact absurd hC p5
      · rw [if_neg hC]
        refine ⟨⟨true, rfl⟩, ?_⟩
        constructor
        · intro _
          refine ⟨?_, ?_, ?_⟩
          · intro hm hne
            by_contra hmem
            apply hA
            simp only [Bool.and_eq_true, beq_iff_eq, Bool.not_eq_true',
              List.isEmpty_eq_false]
            refine ⟨⟨hm, hne⟩, ?_⟩
            rw [List.contains_eq_any_beq]
            rw [List.any_eq_false]
            intro x hx he
            have hxe : chatId ∈ sv.allowlist := by
              rw [beq_iff_eq] at he
              rw [he]
              exact hx
            exact hmem hxe
          · intro hm hmem
            apply hB
            simp only [Bool.and_eq_true, beq_iff_eq, Bool.not_eq_true',
              List.isEmpty_eq_false]
            refine ⟨⟨hm, ?_⟩, ?_⟩
            · intro he; rw [he] at hmem; exact List.not_mem_nil _ hmem
            · rw [List.contains_eq_any_beq, List.any_eq_true]
              exact ⟨chatId, hmem, by simp⟩
          · intro he
            apply hC
            rw [beq_iff_eq]
            exact he
        · intro _
          rfl

/-- Discharging the enabled and loop-guard conjuncts once they are known. -/
theorem modeChatTail_full (sv : SessionView) (cd : ChatData)
    (chatId senderWaId : String) (docs : List (Option String))
    (hEn : sv.enabled = true)
    (hLoop : sv.receiveFromBots = false → senderWaId ∉ selfWaIdsOf docs) :
    (∃ b, modeChatTail sv cd chatId = Except.ok b) ∧
    (modeChatTail sv cd chatId = Except.ok true ↔
      (sv.enabled = true ∧
        (sv.receiveFromBots = false → senderWaId ∉ selfWaIdsOf docs) ∧
        (sv.mode = "allowlist" → sv.allowlist ≠ [] → chatId ∈ sv.allowlist) ∧
        (sv.mode = "blocklist" → chatId ∉ sv.blocklist) ∧
        cd.botEnabled ≠ some false)) := by
  obtain ⟨hex, hiff⟩ := modeChatTail_ok_and_iff sv cd chatId
  refine ⟨hex, ?_⟩
  rw [hiff]
  constructor
  · rintro ⟨p3, p4, p5⟩
    exact ⟨hEn, hLoop, p3, p4, p5⟩
  · rintro ⟨-, -, p3, p4, p5⟩
    exact ⟨p3, p4, p5⟩

/-- C3 (amended): with all reads succeeding, `allowProcess` returns a
boolean, and it returns true iff the session is enabled, the loop guard
passes (`receiveFromBots=false` implies the sender is not one of the
account's own waIds), the allowlist filter passes (an `allowlist` mode with
a NON-EMPTY allowlist requires membership; an empty allowlist filters
nothing), the blocklist filter passes, and the chat view's `botEnabled` is
not false. -/
theorem allowProcess_ok_and_iff (raw : Option BotRaw)
    (docs : List (Option String)) (sRaw tRaw : Option ChatRaw)
    (chatId senderWaId : String) :
    (∃ b, allowProcess (.ok raw) (.ok docs) (.ok sRaw) (.ok tRaw)
        chatId senderWaId = Except.ok b) ∧
    (allowProcess (.ok raw) (.ok docs) (.ok sRaw) (.ok tRaw)
        chatId senderWaId = Except.ok true ↔
      ((sessionViewOf raw).enabled = true ∧
        ((sessionViewOf raw).receiveFromBots = false →
          senderWaId ∉ selfWaIdsOf docs) ∧
        ((sessionViewOf raw).mode = "allowlist" →
          (sessionViewOf raw).allowlist ≠ [] →
          chatId ∈ (sessionViewOf raw).allowlist) ∧
        ((sessionViewOf raw).mode = "blocklist" →
          chatId ∉ (sessionViewOf raw).blocklist) ∧
        (getChatData (.ok sRaw) (.ok tRaw)).botEnabled ≠ some false)) := by
  simp only [allowProcess]
  by_cases hEn : (sessionViewOf raw).enabled = true
  case neg =>
    have hEn' : (sessionViewOf raw).enabled = false := by
      cases h : (sessionViewOf raw).enabled
      · rfl
      · exact absurd h hEn
    simp [hEn']
  case pos =>
    rw [if_neg (show ¬((!(sessionViewOf raw).enabled) = true) from by
      rw [hEn]; decide)]
    by_cases hGuard : ((sessionViewOf raw).receiveFromBots = false ∧ senderWaId ≠ "")
    · -- loop guard branch taken
      have hg : (!(sessionViewOf raw).receiveFromBots && senderWaId != "") = true := by
        obtain ⟨hg1, hg2⟩ := hGuard
        simp [hg1, hg2]
      rw [if_pos hg]
      by_cases hMem : senderWaId ∈ selfWaIdsOf docs
      · have hc : (selfWaIdsOf docs).contains senderWaId = true := by
          simpa [List.contains] using hMem
        rw [if_pos hc]
        constructor
        · exact ⟨false, rfl⟩
        · constructor
          · intro habs
            exact absurd habs (by simp)
          · rintro ⟨-, h2, -, -, -⟩
            exact absurd hMem (h2 hGuard.1)
      · have hc : (selfWaIdsOf docs).contains senderWaId = false := by
          cases hcc : (selfWaIdsOf docs).contains senderWaId
          · rfl
          · exact absurd (by simpa [List.contains] using hcc) hMem
        rw [if_neg (by rw [hc]; exact Bool.false_ne_true)]
        -- continue past the guard
        exact modeChatTail_full _ _ chatId senderWaId docs hEn (fun _ => hMem)
    · -- loop guard branch not taken
      have hg : (!(sessionViewOf raw).receiveFromBots && senderWaId != "") = false := by
        rcases not_and_or.mp hGuard with h | h
        · have : (sessionViewOf raw).receiveFromBots = true := by
            cases hr : (sessionViewOf raw).receiveFromBots
            · exact absurd hr h
            · rfl
          simp [this]
        · have : senderWaId = "" := not_not.mp h
          simp [this]
      rw [if_neg (by rw [hg]; exact Bool.false_ne_true)]
      refine modeChatTail_full _ _ chatId senderWaId docs hEn ?_
      intro hrfb hmem
      rcases not_and_or.mp hGuard with h | h
      · exact absurd hrfb (by simpa using h)
      · exact selfWaIds_ne_empty docs senderWaId hmem (not_not.mp h)

/-- Witness for C3: the amended characterization applied at a concrete
all-defaults session. -/
theorem allowProcess_ok_and_iff_witness :
    allowProcess (Except.ok none) (Except.ok []) (Except.ok none)
        (Except.ok none) "1@c.us" "2@c.us" = Except.ok true :=
  (allowProcess_ok_and_iff none [] none none "1@c.us" "2@c.us").2.mpr
    (by
      refine ⟨by decide, ?_, ?_, ?_, by decide⟩
      · intro _
        decide
      · intro h
        exact absurd h (by decide)
      · intro h
        exact absurd h (by decide))

/-- Counterexample to C3 as stated: with `mode='allowlist'` and an EMPTY
allowlist, `chatId` is not in the allowlist, yet `allowProcess` returns
true (the code only applies the allowlist filter when the list is
non-empty). -/
theorem allowProcess_claim_counterexample :
    allowProcess (Except.ok (some { mode := some "allowlist" }))
        (Except.ok []) (Except.ok none) (Except.ok none)
        "123@c.us" "999@c.us" = Except.ok true ∧
      (sessionViewOf (some { mode := some "allowlist" })).mode = "allowlist" ∧
      "123@c.us" ∉ (sessionViewOf (some { mode := some "allowlist" })).allowlist ∧
      (sessionViewOf (some { mode := some "allowlist" })).enabled = true := by
  refine ⟨?_, ?_, ?_, ?_⟩ <;> first | rfl | decide

/-! ## BufferManager (src/bot/watchers/TurnOutboxWatcher.js, BufferManager
sections) -/

/-- Timestamp coercion in `_pushAllowed` (lines 241-242 and 366-367):
`tsRaw = Number(evt.waTimestamp || Date.now())`, then seconds→ms when below
`10_000_000_000`.  A missing or zero (JS-falsy) `waTimestamp` falls back to
`Date.now()`. -/
def coerceTs (waTimestamp : Option Int) (now : Int) : Int :=
  let tsRaw : Int :=
    match waTimestamp with
    | none => now
    | some w => if w = 0 then now else w
  if tsRaw < 10000000000 then tsRaw * 1000 else tsRaw

/-- `VOICE_TYPES` (line 316). -/
def voiceTypes : List String := ["ptt", "audio", "voice"]

/-- The inbound-event fields `_pushAllowed` reads. -/
structure Evt where
  waTimestamp : Option Int := none
  body : Option String := none
  hasMedia : Bool := false
  messageType : Option String := none
deriving DecidableEq, Repr

/-- The items `_pushAllowed` appends (lines 363-405): a non-blank trimmed
body appends a text item; a media-bearing voice-typed message appends a
voice item when the media-store save succeeds (a failure is logged and the
item skipped). -/
def pushAllowedItems (evt : Evt) (now : Int)
    (mediaSave : Except Unit (String × String × String)) : List Item :=
  let ts := coerceTs evt.waTimestamp now
  let text := jsTrim (evt.body.getD "")
  let textItems : List Item :=
    if text = "" then [] else [⟨ts, ItemKind.text text⟩]
  let voiceItems : List Item :=
    if evt.hasMedia && voiceTypes.contains (jsToLower (evt.messageType.getD ""))
    then
      match mediaSave with
      | .ok (g, c, f) => [⟨ts, ItemKind.voice g c f⟩]
      | .error _ => []
    else []
  textItems ++ voiceItems

/-- `BufferManager.push` gating (lines 346-361): `policy.allowProcess`
gates `_pushAllowed`; a rejected policy promise is caught
(`.catch(console.error)`) and nothing is appended. -/
def pushGate (policyResult : Except Unit Bool) (evt : Evt) (now : Int)
    (mediaSave : Except Unit (String × String × String)) : List Item :=
  match policyResult with
  | .error _ => []
  | .ok false => []
  | .ok true => pushAllowedItems evt now mediaSave

/-- C7 (amended): a present NONZERO `waTimestamp` below 10^10 is multiplied
by 1000 and one at least 10^10 is preserved; a missing OR ZERO (JS-falsy)
`waTimestamp` falls back to `now` (itself normalized by the same rule); and
every item appended by `_pushAllowed` carries exactly this coerced
timestamp. -/
theorem coerceTs_spec :
    (∀ w now, w ≠ 0 → w < 10000000000 → coerceTs (some w) now = w * 1000) ∧
    (∀ w now, 10000000000 ≤ w → coerceTs (some w) now = w) ∧
    (∀ now, coerceTs none now =
      (if now < 10000000000 then now * 1000 else now)) ∧
    (∀ now, coerceTs (some 0) now = coerceTs none now) ∧
    (∀ evt now media it, it ∈ pushAllowedItems evt now media →
      it.ts = coerceTs evt.waTimestamp now) := by
  refine ⟨?_, ?_, ?_, ?_, ?_⟩
  · intro w now hw hlt
    simp only [coerceTs, if_neg hw, if_pos hlt]
  · intro w now hge
    have h1 : w ≠ 0 := by omega
    have h2 : ¬(w < 10000000000) := by omega
    simp only [coerceTs, if_neg h1, if_neg h2]
  · intro now
    simp only [coerceTs]
  · intro now
    simp [coerceTs]
  · intro evt now media it hmem
    simp only [pushAllowedItems] at hmem
    rcases List.mem_append.mp hmem with h | h
    · split at h
      · exact absurd h (List.not_mem_nil it)
      · rcases List.mem_singleton.mp h with rfl
        rfl
    · split at h
      · split at h
        · rcases List.mem_singleton.mp h with rfl
          rfl
        · exact absurd h (List.not_mem_nil it)
      · exact absurd h (List.not_mem_nil it)

/-- Witness for C7: a seconds-scale timestamp is scaled to milliseconds. -/
theorem coerceTs_spec_witness : coerceTs (some 1700000000) 0 = 1700000000000 :=
  coerceTs_spec.1 1700000000 0 (by decide) (by decide)

/-- Counterexample to C7 as stated: `waTimestamp = 0` is below 10^10, but
JS `||` treats `0` as missing, so the stored timestamp is `now`, not
`0 * 1000`. -/
theorem coerceTs_claim_counterexample :
    coerceTs (some 0) 1700000000000 = 1700000000000 ∧
      (0 : Int) < 10000000000 ∧
      (1700000000000 : Int) ≠ 0 * 1000 := by
  refine ⟨?_, by decide, by decide⟩
  decide

/-! ## TurnOutboxWatcherHub._processTurnDoc
(the watcher iteration embedded in src/bot/media/MediaStore.js, lines
181-227; the claim/validate/skip steps are identical at
src/bot/watchers/TurnOutboxWatcher.js lines 100-131). -/

structure TurnMeta where
  accountId : Option String := none
  label : Option String := none
  chatId : Option String := none
deriving DecidableEq, Repr

structure AudioRef where
  url : Option String := none
deriving DecidableEq, Repr

structure Response where
  modality : Option String := none
  text : Option String := none
  audio : Option AudioRef := none
deriving DecidableEq, Repr

structure TurnErr where
  stage : String
  detail : String
deriving DecidableEq, Repr

/-- The turn document fields `_processTurnDoc` reads and writes. -/
structure TurnDoc where
  status : String
  waMessageId : Option String := none
  meta : Option TurnMeta := none
  response : Option Response := none
  claimedAt : Option Int := none
  deliveredAt : Option Int := none
  skippedAt : Option Int := none
  error : Option TurnErr := none
deriving DecidableEq, Repr

/-- The claim transaction (MediaStore.js lines 182-189, identical at
TurnOutboxWatcher.js lines 102-109): read the doc; a missing doc, a status
other than `'ready'`, or a truthy `waMessageId` aborts with no write; else
update exactly `{status:'sending', claimedAt:now}` and hand back the
pre-update data. -/
def claimTx (store : Option TurnDoc) (now : Int) :
    Option TurnDoc × Option TurnDoc :=
  match store with
  | none => (none, none)
  | some cur =>
    if cur.status != "ready" || strTruthy cur.waMessageId then (none, some cur)
    else (some cur, some { cur with status := "sending", claimedAt := some now })

/-- A platform send performed by the watcher. -/
inductive SendAction where
  | media (url caption : String) (voiceNote : Bool)
  | text (body : String)
deriving DecidableEq, Repr

/-- Outcome of one `_processTurnDoc` run: the final document state, the
platform sends performed, and the statuses written to the doc in order. -/
structure ProcessResult where
  store : Option TurnDoc
  sends : List SendAction
  statuses : List String
deriving DecidableEq, Repr

/-- `String(response.modality || 'text')`. -/
def resolveModality (r : Response) : String :=
  if r.modality.getD "" = "" then "text" else r.modality.getD ""

/-- `response.audio?.url`. -/
def audioUrlOf (r : Response) : Option String :=
  match r.audio with
  | some a => a.url
  | none => none

/-- Do all three meta ids survive `String(meta.x || '')` non-empty? -/
def validMeta (d : TurnDoc) : Prop :=
  (d.meta.getD {}).accountId.getD "" ≠ "" ∧
    (d.meta.getD {}).label.getD "" ≠ "" ∧
    (d.meta.getD {}).chatId.getD "" ≠ ""

instance (d : TurnDoc) : Decidable (validMeta d) := by
  unfold validMeta
  infer_instance

/-- `_processTurnDoc` (MediaStore.js lines 181-227): claim atomically,
validate meta, double-check `policy.allowSend`, dispatch (voice media with
the trimmed text as caption and `sendAudioAsVoice` when
`modality === 'voice'` and `audio.url` is truthy; else text with the
trimmed response text or the `"Mensaje listo."` fallback), then the
terminal write.  `allow` is the `allowSend` oracle — `.error` models the
policy read throwing, which propagates before any send, leaving the doc in
`sending`.  `sendResult` is the platform-send oracle carrying
`msg?.id?._serialized | null`.  `processClaimed` is the part of the
function after a successful claim (`claimed` is the pre-claim snapshot
data, `store1` the post-claim document). -/
def processClaimed (claimed : TurnDoc) (store1 : Option TurnDoc)
    (allow : Except Unit Bool) (sendResult : Except String (Option String))
    (now : Int) : ProcessResult :=
    let meta := claimed.meta.getD {}
    let response := claimed.response.getD {}
    let accountId := meta.accountId.getD ""
    let label := meta.label.getD ""
    let chatId := meta.chatId.getD ""
    if accountId = "" ∨ label = "" ∨ chatId = "" then
      ⟨store1.map (fun d => { d with
          status := "error"
          error := some ⟨"validate", "missing meta.accountId/label/chatId"⟩ }),
        [], ["sending", "error"]⟩
    else
      match allow with
      | .error _ => ⟨store1, [], ["sending"]⟩
      | .ok false =>
        ⟨store1.map (fun d => { d with
            status := "skipped"
            skippedAt := some now
            error := none }),
          [], ["sending", "skipped"]⟩
      | .ok true =>
        let send : SendAction :=
          if resolveModality response = "voice" ∧
              strTruthy (audioUrlOf response) = true then
            .media ((audioUrlOf response).getD "")
              (jsTrim (response.text.getD "")) true
          else
            .text (if jsTrim (response.text.getD "") = "" then "Mensaje listo."
              else jsTrim (response.text.getD ""))
        match sendResult with
        | .ok msgId =>
          ⟨store1.map (fun d => { d with
              status := "delivered"
              deliveredAt := some now
              waMessageId := if strTruthy msgId then msgId else none
              error := none }),
            [send], ["sending", "delivered"]⟩
        | .error detail =>
          ⟨store1.map (fun d => { d with
              status := "error"
              error := some ⟨"send", detail⟩ }),
            [send], ["sending", "error"]⟩

/-- `_processTurnDoc`: the claim transaction followed by `processClaimed`
on success; an aborted claim returns with no writes and no sends. -/
def processTurnDoc (store : Option TurnDoc) (allow : Except Unit Bool)
    (sendResult : Except String (Option String)) (now : Int) : ProcessResult :=
  match claimTx store now with
  | (none, store1) => ⟨store1, [], []⟩
  | (some claimed, store1) => processClaimed claimed store1 allow sendResult now

/-- One observer's inputs for a processing attempt. -/
structure ObsOracle where
  allow : Except Unit Bool
  sendResult : Except String (Option String)
  now : Int

/-- Sequential composition of observer runs over the shared document:
store transactions serialize, so concurrent observers are modelled as a
sequence of `_processTurnDoc` runs against the evolving document. -/
def runObservers : Option TurnDoc → List ObsOracle →
    Option TurnDoc × List SendAction
  | store, [] => (store, [])
  | store, o :: os =>
    let r := processTurnDoc store o.allow o.sendResult o.now
    let rest := runObservers r.store os
    (rest.1, r.sends ++ rest.2)

/-- Sequential composition of bare claim transactions, counting successes. -/
def runClaims : Option TurnDoc → List Int → Nat × Option TurnDoc
  | store, [] => (0, store)
  | store, n :: ns =>
    let c := claimTx store n
    let rest := runClaims c.2 ns
    ((if c.1.isSome then 1 else 0) + rest.1, rest.2)

/-- A document on which the claim transaction can succeed. -/
def claimable (store : Option TurnDoc) : Prop :=
  ∃ d, store = some d ∧ d.status = "ready" ∧ strTruthy d.waMessageId = false

theorem not_claimable_status (d : TurnDoc) (h : d.status ≠ "ready") :
    ¬claimable (some d) := by
  rintro ⟨d', hd', hst, -⟩
  injection hd' with he
  rw [← he] at hst
  exact h hst

theorem claimTx_abort (store : Option TurnDoc) (now : Int)
    (h : ¬claimable store) : claimTx store now = (none, store) := by
  cases store with
  | none => rfl
  | some cur =>
    have hcond : (cur.status != "ready" || strTruthy cur.waMessageId) = true := by
      cases hb : (cur.status != "ready" || strTruthy cur.waMessageId)
      · exfalso
        apply h
        rw [Bool.or_eq_false_iff] at hb
        exact ⟨cur, rfl, by simpa using hb.1, hb.2⟩
      · rfl
    simp only [claimTx, hcond, if_true]

theorem claimTx_success (d : TurnDoc) (now : Int) (hs : d.status = "ready")
    (hw : strTruthy d.waMessageId = false) :
    claimTx (some d) now = (some d,
      some { d with status := "sending", claimedAt := some now }) := by
  have hcond : (d.status != "ready" || strTruthy d.waMessageId) = false := by
    rw [Bool.or_eq_false_iff]
    exact ⟨by simp [hs], hw⟩
  simp only [claimTx, hcond, Bool.false_eq_true, if_false]

/-- Reduction of `_processTurnDoc` on a claimable document. -/
theorem processTurnDoc_claimed (d : TurnDoc) (a : Except Unit Bool)
    (r : Except String (Option String)) (n : Int)
    (hs : d.status = "ready") (hw : strTruthy d.waMessageId = false) :
    processTurnDoc (some d) a r n =
      processClaimed d (some { d with
        status := "sending"
        claimedAt := some n }) a r n := by
  unfold processTurnDoc
  rw [claimTx_success d n hs hw]

theorem processTurnDoc_abort (store : Option TurnDoc)
    (a : Except Unit Bool) (r : Except String (Option String)) (n : Int)
    (h : ¬claimable store) :
    processTurnDoc store a r n = ⟨store, [], []⟩ := by
  unfold processTurnDoc
  rw [claimTx_abort store n h]

theorem processTurnDoc_claims_once (d : TurnDoc) (a : Except Unit Bool)
    (r : Except String (Option String)) (n : Int)
    (hs : d.status = "ready") (hw : strTruthy d.waMessageId = false) :
    ¬claimable ((processTurnDoc (some d) a r n).store) ∧
      (processTurnDoc (some d) a r n).sends.length ≤ 1 := by
  rw [processTurnDoc_claimed d a r n hs hw]
  simp only [processClaimed]
  by_cases hv : ((d.meta.getD {}).accountId.getD "" = "" ∨
      (d.meta.getD {}).label.getD "" = "" ∨ (d.meta.getD {}).chatId.getD "" = "")
  · rw [if_pos hv]
    exact ⟨not_claimable_status _ (by simp), by simp⟩
  · rw [if_neg hv]
    cases a with
    | error e => exact ⟨not_claimable_status _ (by simp), by simp⟩
    | ok b =>
      cases b with
      | false => exact ⟨not_claimable_status _ (by simp), by simp⟩
      | true =>
        cases r with
        | ok msgId => exact ⟨not_claimable_status _ (by simp), by simp⟩
        | error detail => exact ⟨not_claimable_status _ (by simp), by simp⟩

theorem runObservers_stuck : ∀ (os : List ObsOracle) (store : Option TurnDoc),
    ¬claimable store → runObservers store os = (store, []) := by
  intro os
  induction os with
  | nil => intro store _; rfl
  | cons o os ih =>
    intro store h
    simp only [runObservers, processTurnDoc_abort store o.allow o.sendResult o.now h,
      ih store h]
    rfl

theorem runObservers_sends_le_one :
    ∀ (os : List ObsOracle) (store : Option TurnDoc),
      (runObservers store os).2.length ≤ 1 := by
  intro os
  induction os with
  | nil => intro store; simp [runObservers]
  | cons o os ih =>
    intro store
    by_cases h : claimable store
    · obtain ⟨d, rfl, hs, hw⟩ := h
      have h1 := processTurnDoc_claims_once d o.allow o.sendResult o.now hs hw
      have h2 := runObservers_stuck os _ h1.1
      simp only [runObservers, h2]
      simpa using h1.2
    · have h1 := processTurnDoc_abort store o.allow o.sendResult o.now h
      simp only [runObservers, h1]
      simpa using ih store

theorem runClaims_zero : ∀ (ns : List Int) (store : Option TurnDoc),
    ¬claimable store → (runClaims store ns).1 = 0 := by
  intro ns
  induction ns with
  | nil => intro store _; rfl
  | cons n ns ih =>
    intro store h
    simp only [runClaims, claimTx_abort store n h]
    simpa using ih store h

/-- C1: the claim transaction aborts without a write exactly on a missing
doc, a non-`ready` status, or an already-set (truthy) `waMessageId`; on
success it writes exactly `{status:'sending', claimedAt:now}`; hence among
any number of sequentially-serialized claim attempts on a ready turn
exactly one succeeds, and any number of full observer runs on the shared
document perform at most one platform send. -/
theorem claim_at_most_once :
    (∀ now, claimTx none now = (none, none)) ∧
    (∀ d now, (d.status ≠ "ready" ∨ strTruthy d.waMessageId = true) →
        claimTx (some d) now = (none, some d)) ∧
    (∀ d now, d.status = "ready" → strTruthy d.waMessageId = false →
        claimTx (some d) now = (some d,
          some { d with status := "sending", claimedAt := some now })) ∧
    (∀ d ns, d.status = "ready" → strTruthy d.waMessageId = false →
        ns ≠ [] → (runClaims (some d) ns).1 = 1) ∧
    (∀ store os, (runObservers store os).2.length ≤ 1) := by
  refine ⟨fun _ => rfl, ?_, claimTx_success, ?_, fun store os =>
    runObservers_sends_le_one os store⟩
  · intro d now h
    apply claimTx_abort
    rintro ⟨d', hd', hst, hwm⟩
    injection hd' with he
    rw [← he] at hst hwm
    rcases h with h | h
    · exact h hst
    · rw [h] at hwm
      exact absurd hwm (by decide)
  · intro d ns hs hw hne
    cases ns with
    | nil => exact absurd rfl hne
    | cons n ns =>
      simp only [runClaims, claimTx_success d n hs hw]
      have hnc : ¬claimable (some { d with
          status := "sending"
          claimedAt := some n }) :=
        not_claimable_status _ (by simp)
      simp [runClaims_zero ns _ hnc]

/-- Witness for C1: three racing claims on a ready turn succeed exactly
once. -/
theorem claim_at_most_once_witness :
    (runClaims (some { status := "ready" }) [1, 2, 3]).1 = 1 :=
  claim_at_most_once.2.2.2.1 { status := "ready" } [1, 2, 3] rfl rfl (by decide)

theorem validMeta_not_missing (d : TurnDoc) (hv : validMeta d) :
    ¬((d.meta.getD {}).accountId.getD "" = "" ∨
      (d.meta.getD {}).label.getD "" = "" ∨
      (d.meta.getD {}).chatId.getD "" = "") := by
  obtain ⟨h1, h2, h3⟩ := hv
  rintro (h | h | h)
  · exact h1 h
  · exact h2 h
  · exact h3 h

/-- C2: a claimed turn with valid meta that `policy.allowSend` denies
performs no platform send; the only write after the claim is exactly
`{status:'skipped', skippedAt:now, error:null}`; `waMessageId` stays
unset; and the status trace through the document is
ready → sending → skipped. -/
theorem turn_skipped_on_policy_deny (d : TurnDoc) (now : Int)
    (sendResult : Except String (Option String))
    (hs : d.status = "ready") (hw : strTruthy d.waMessageId = false)
    (hv : validMeta d) :
    processTurnDoc (some d) (.ok false) sendResult now =
      ⟨some { d with
          status := "skipped"
          claimedAt := some now
          skippedAt := some now
          error := none },
        [], ["sending", "skipped"]⟩ ∧
      strTruthy ({ d with
          status := "skipped"
          claimedAt := some now
          skippedAt := some now
          error := none } : TurnDoc).waMessageId = false := by
  refine ⟨?_, hw⟩
  rw [processTurnDoc_claimed d _ sendResult now hs hw]
  simp only [processClaimed]
  rw [if_neg (validMeta_not_missing d hv)]
  rfl

/-- Witness for C2: a concrete denied turn ends `skipped` with no sends.
(`TurnDoc` fields: status, waMessageId, meta, response, claimedAt,
deliveredAt, skippedAt, error.) -/
theorem turn_skipped_on_policy_deny_witness :
    processTurnDoc
        (some ⟨"ready", none, some ⟨some "a", some "l", some "c"⟩,
          none, none, none, none, none⟩)
        (.ok false) (.ok none) 7 =
      ⟨some ⟨"skipped", none, some ⟨some "a", some "l", some "c"⟩,
          none, some 7, none, some 7, none⟩,
        [], ["sending", "skipped"]⟩ :=
  (turn_skipped_on_policy_deny
    ⟨"ready", none, some ⟨some "a", some "l", some "c"⟩,
      none, none, none, none, none⟩ 7 (.ok none)
    rfl rfl (by decide)).1

/-- C6: at dispatch of a claimed, policy-allowed turn, a response with
`modality='voice'` and a truthy `audio.url` is sent as media with the
trimmed text as caption and flagged as a voice note; any other response is
sent as text, the body being the trimmed `response.text` or the literal
`"Mensaje listo."` when that is empty. -/
theorem dispatch_voice_or_text (d : TurnDoc) (now : Int)
    (sendResult : Except String (Option String))
    (hs : d.status = "ready") (hw : strTruthy d.waMessageId = false)
    (hv : validMeta d) :
    ((resolveModality (d.response.getD {}) = "voice" ∧
        strTruthy (audioUrlOf (d.response.getD {})) = true) →
      (processTurnDoc (some d) (.ok true) sendResult now).sends =
        [SendAction.media ((audioUrlOf (d.response.getD {})).getD "")
          (jsTrim ((d.response.getD {}).text.getD "")) true]) ∧
    (¬(resolveModality (d.response.getD {}) = "voice" ∧
        strTruthy (audioUrlOf (d.response.getD {})) = true) →
      (processTurnDoc (some d) (.ok true) sendResult now).sends =
        [SendAction.text (if jsTrim ((d.response.getD {}).text.getD "") = ""
          then "Mensaje listo."
          else jsTrim ((d.response.getD {}).text.getD ""))]) := by
  constructor <;>
    (intro hcase
     rw [processTurnDoc_claimed d _ sendResult now hs hw]
     simp only [processClaimed]
     rw [if_neg (validMeta_not_missing d hv)])
  · cases sendResult with
    | ok msgId => simp only [if_pos hcase]
    | error detail => simp only [if_pos hcase]
  · cases sendResult with
    | ok msgId => simp only [if_neg hcase]
    | error detail => simp only [if_neg hcase]

/-- Witness for C6: a concrete voice response dispatches as a voice-note
media send with the trimmed caption. -/
theorem dispatch_voice_or_text_witness :
    (processTurnDoc
        (some ⟨"ready", none, some ⟨some "a", some "l", some "c"⟩,
          some ⟨some "voice", some " hola ", some ⟨some "http://x"⟩⟩,
          none, none, none, none⟩)
        (.ok true) (.ok (some "mid")) 7).sends =
      [SendAction.media "http://x" "hola" true] :=
  (dispatch_voice_or_text
    ⟨"ready", none, some ⟨some "a", some "l", some "c"⟩,
      some ⟨some "voice", some " hola ", some ⟨some "http://x"⟩⟩,
      none, none, none, none⟩ 7 (.ok (some "mid"))
    rfl rfl (by decide)).1 (by decide)

/-- C9: a failed policy or document-store read during a policy lookup is
fail-closed: a rejected `allowProcess` promise appends nothing to the
buffer; a throwing `allowSend` read stops a claimed dispatch before any
send (the doc stays `sending`, never `delivered`); session-doc reads
propagate their failure out of both policy functions; ONLY the per-chat
settings lookup (`_getChat`) catches its failure and degrades to the
empty, permissive chat view. -/
theorem policy_read_fail_closed :
    (∀ evt now media, pushGate (.error ()) evt now media = []) ∧
    (∀ d now sendResult, d.status = "ready" →
        strTruthy d.waMessageId = false → validMeta d →
        processTurnDoc (some d) (.error ()) sendResult now =
          ⟨some { d with status := "sending", claimedAt := some now },
            [], ["sending"]⟩) ∧
    (∀ threadRead, getChatData (.error ()) threadRead = {}) ∧
    (getChatData (.ok none) (.error ()) = {} ∧
      getChatData (.ok none) (.ok none) = {}) ∧
    (∀ selfRead settingsRead threadRead chatId senderWaId,
        allowProcess (.error ()) selfRead settingsRead threadRead
          chatId senderWaId = .error ()) ∧
    (∀ settingsRead threadRead chatId,
        allowSend (.error ()) settingsRead threadRead chatId = .error ()) := by
  refine ⟨fun _ _ _ => rfl, ?_, fun _ => rfl, ⟨rfl, rfl⟩,
    fun _ _ _ _ _ => rfl, fun _ _ _ => rfl⟩
  intro d now sendResult hs hw hv
  rw [processTurnDoc_claimed d _ sendResult now hs hw]
  simp only [processClaimed]
  rw [if_neg (validMeta_not_missing d hv)]

/-- Witness for C9: a concrete claimed turn whose policy read throws is
left in `sending` with no sends. -/
theorem policy_read_fail_closed_witness :
    processTurnDoc
        (some ⟨"ready", none, some ⟨some "a", some "l", some "c"⟩,
          none, none, none, none, none⟩)
        (.error ()) (.ok none) 5 =
      ⟨some ⟨"sending", none, some ⟨some "a", some "l", some "c"⟩,
          none, some 5, none, none, none⟩,
        [], ["sending"]⟩ :=
  policy_read_fail_closed.2.1
    ⟨"ready", none, some ⟨some "a", some "l", some "c"⟩,
      none, none, none, none, none⟩ 5 (.ok none)
    rfl rfl (by decide)

/-! ## wsHub.js: per-connection allowed-set management -/

/-- The `extra` filters a `subscribe` message installs (wsHub.js lines
89-93). -/
structure WsFilters where
  types : Option (List String) := none
  chats : Option (List String) := none
  fromMe : Option Bool := none
deriving DecidableEq, Repr

/-- The per-connection state the two handlers touch: the allowed session
set and the optional narrowing filters. -/
structure Conn where
  allowed : List String := []
  extra : Option WsFilters := none
deriving DecidableEq, Repr

/-- `new Set(list)`: deduplicate, keeping first occurrences in order. -/
def jsSetOfList (l : List String) : List String :=
  l.foldl (fun acc s => if acc.contains s then acc else acc ++ [s]) []

/-- The live ACL-update callback (wsHub.js lines 66-73):
`conn.allowed = new Set((sessions || []).map(String))`; `conn.extra` is
not touched. -/
def aclUpdate (sessions : Option (List String)) (c : Conn) : Conn :=
  { c with allowed := jsSetOfList (sessions.getD []) }

/-- A client `subscribe` message's filters. -/
structure SubscribeFilters where
  sessions : Option (List String) := none
  types : Option (List String) := none
  chats : Option (List String) := none
  fromMe : Option Bool := none
deriving DecidableEq, Repr

/-- The `subscribe` handler (wsHub.js lines 84-95): a non-empty sessions
array narrows `allowed` to its intersection with the current allowed set;
`extra` is replaced wholesale. -/
def applySubscribe (f : SubscribeFilters) (c : Conn) : Conn :=
  let allowed' := match f.sessions with
    | some ss =>
      if ss.isEmpty then c.allowed
      else jsSetOfList (ss.filter (fun s => c.allowed.contains s))
    | none => c.allowed
  { allowed := allowed', extra := some ⟨f.types, f.chats, f.fromMe⟩ }

theorem mem_jsSetOfList_aux (l : List String) :
    ∀ (acc : List String) (x : String),
      x ∈ l.foldl (fun acc s => if acc.contains s then acc else acc ++ [s]) acc ↔
        x ∈ acc ∨ x ∈ l := by
  induction l with
  | nil => intro acc x; simp
  | cons a t ih =>
    intro acc x
    simp only [List.foldl_cons]
    by_cases hc : acc.contains a = true
    · rw [if_pos hc]
      rw [ih acc x]
      have ha : a ∈ acc := by simpa [List.contains] using hc
      constructor
      · rintro (h | h)
        · exact Or.inl h
        · exact Or.inr (List.mem_cons_of_mem _ h)
      · rintro (h | h)
        · exact Or.inl h
        · rcases List.mem_cons.mp h with rfl | h'
          · exact Or.inl ha
          · exact Or.inr h'
    · rw [if_neg hc]
      rw [ih (acc ++ [a]) x]
      constructor
      · rintro (h | h)
        · rcases List.mem_append.mp h with h' | h'
          · exact Or.inl h'
          · rcases List.mem_singleton.mp h' with rfl
            exact Or.inr (List.mem_cons_self _ _)
        · exact Or.inr (List.mem_cons_of_mem _ h)
      · rintro (h | h)
        · exact Or.inl (List.mem_append.mpr (Or.inl h))
        · rcases List.mem_cons.mp h with rfl | h'
          · exact Or.inl (List.mem_append.mpr (Or.inr (List.mem_singleton.mpr rfl)))
          · exact Or.inr h'

theorem mem_jsSetOfList (l : List String) (x : String) :
    x ∈ jsSetOfList l ↔ x ∈ l := by
  unfold jsSetOfList
  rw [mem_jsSetOfList_aux l [] x]
  simp

/-- C10: the ACL-update callback replaces the connection's allowed set by
exactly the (deduplicated) sessions list of the update — independent of any
narrowing a prior `subscribe` applied, so membership afterwards is
membership in the new list and the set can grow back beyond the narrowed
one — while the `extra` type/chat/fromMe filters are left unchanged. -/
theorem aclUpdate_replaces_allowed :
    (∀ c sessions, (aclUpdate sessions c).allowed =
        jsSetOfList (sessions.getD []) ∧
      (aclUpdate sessions c).extra = c.extra) ∧
    (∀ c f sessions x,
        (x ∈ (aclUpdate sessions (applySubscribe f c)).allowed ↔
          x ∈ sessions.getD []) ∧
        (aclUpdate sessions (applySubscribe f c)).extra =
          some ⟨f.types, f.chats, f.fromMe⟩) := by
  constructor
  · intro c sessions
    exact ⟨rfl, rfl⟩
  · intro c f sessions x
    exact ⟨mem_jsSetOfList _ x, rfl⟩

end CipWs
